import Mathlib

/-!
Shallow embedding of `src/examples/c-hello/main.c`, compiled for the
32-bit WebAssembly target (the file is an Emscripten module).

C `int` values are modelled as `Int` together with explicit two's-complement
wraparound: every arithmetic step whose C counterpart is a 32-bit signed
operation that can overflow goes through `wrap32`, and the `long long`
accumulator of `factorial` goes through `wrap64`.  The diagnostic `printf`
calls have no effect on any return value and are omitted.  C's `%` agrees
with `Int.emod` on the nonnegative operands at which every `%` in the
source is evaluated.  Loops whose 32-bit counter can wrap (and hence can
fail to terminate) are given explicit fuel and return `Option`; `none`
stands for a run that does not finish within the fuel, and a separate
theorem shows the run is `none` for every fuel where the source diverges.
Heap-handling code (`create_array` / `free_array`) is modelled with
explicit state: allocation success is an explicit boolean, the byte count
handed to `malloc` is the 32-bit `size_t` product `size * 4 mod 2^32`, the
heap is the set of live handles, and an operation whose C counterpart is
undefined behaviour returns `none`.
-/

/-- Two's-complement wraparound of a 32-bit signed value (C `int` on
wasm32). -/
def wrap32 (x : Int) : Int := (x + 2 ^ 31) % 2 ^ 32 - 2 ^ 31

/-- Two's-complement wraparound of a 64-bit signed value (C `long long`). -/
def wrap64 (x : Int) : Int := (x + 2 ^ 63) % 2 ^ 64 - 2 ^ 63

/-- C `fibonacci` (main.c lines 24-34): `if (n <= 1) return n;` else the
naive recursive sum; the `int` addition wraps at 32 bits. -/
def fibonacci (n : Int) : Int :=
  if n ≤ 1 then n
  else wrap32 (fibonacci (n - 1) + fibonacci (n - 2))
termination_by n.toNat
decreasing_by
  · omega
  · omega

/-- The loop of C `sum_array` (main.c lines 38-47):
`for (i = 0; i < length; i++) sum += numbers[i];` with a 32-bit `int`
accumulator (the `+=` wraps); the counter `i` never overflows since it is
bounded by a 32-bit `length`. -/
def sumLoop (numbers : List Int) (length i sum : Int) : Int :=
  if i < length then sumLoop numbers length (i + 1) (wrap32 (sum + numbers.getD i.toNat 0))
  else sum
termination_by (length - i).toNat
decreasing_by omega

/-- C `sum_array` (main.c lines 38-47). -/
def sum_array (numbers : List Int) (length : Int) : Int :=
  sumLoop numbers length 0 0

/-- The loop of C `factorial` (main.c lines 51-64):
`for (i = 2; i <= n; i++) result *= i;` with a `long long` accumulator
(wraps at 64 bits) and an `int` counter (wraps at 32 bits, so the loop
never exits when `n` is `INT_MAX`); fuel makes the possible divergence
explicit (`none` = not finished within the fuel). -/
def factLoop : Nat → Int → Int → Int → Option Int
  | 0, _, _, _ => none
  | fuel + 1, n, i, result =>
    if i ≤ n then factLoop fuel n (wrap32 (i + 1)) (wrap64 (result * i))
    else some result

/-- C `factorial` (main.c lines 51-64): `if (n <= 1) return 1;` then the
loop, with fuel `n.toNat + 1` (one unit per loop entry check, sufficient
for every terminating run). -/
def factorial (n : Int) : Option Int :=
  if n ≤ 1 then some 1
  else factLoop (n.toNat + 1) n 2 1

/-- The loop of C `is_prime` (main.c lines 68-94):
`for (i = 5; i * i <= n; i += 6) if (n % i == 0 || n % (i+2) == 0) return 0;`
then `return 1;`.  Both the product `i * i` and the step `i + 6` are 32-bit
`int` operations and wrap; fuel makes the iteration count explicit. -/
def primeLoop : Nat → Int → Int → Option Int
  | 0, _, _ => none
  | fuel + 1, n, i =>
    if wrap32 (i * i) ≤ n then
      if n % i = 0 ∨ n % (i + 2) = 0 then some 0
      else primeLoop fuel n (wrap32 (i + 6))
    else some 1

/-- C `is_prime` (main.c lines 68-94), with fuel `n.toNat` (ample for every
run the guards let through). -/
def is_prime (n : Int) : Option Int :=
  if n ≤ 1 then some 0
  else if n ≤ 3 then some 1
  else if n % 2 = 0 ∨ n % 3 = 0 then some 0
  else primeLoop n.toNat n 5

/-- The initialisation loop of C `create_array` (main.c lines 108-124):
`for (i = 0; i < size; i++) arr[i] = i + 1;`, building the array left to
right (`i + 1` never overflows for `i` below a 32-bit `size`). -/
def createLoop (size i : Int) (acc : List Int) : List Int :=
  if i < size then createLoop size (i + 1) (acc ++ [i + 1])
  else acc
termination_by (size - i).toNat
decreasing_by omega

/-- C `create_array` (main.c lines 108-124).  `malloc(size * sizeof(int))`
receives the 32-bit `size_t` byte count `size * 4 mod 2^32`, so the
allocated capacity is `size * 4 % 2^32 / 4` elements.  If `malloc` fails
(`allocOk = false`) the null pointer is returned to the caller
(`some none`).  If it succeeds and the capacity covers the `size` writes
of the loop, the initialised array is returned (`some (some arr)`);
otherwise the loop writes out of bounds, which is undefined behaviour
(`none`). -/
def create_array (size : Int) (allocOk : Bool) : Option (Option (List Int)) :=
  if allocOk then
    if size ≤ size * 4 % 2 ^ 32 / 4 then some (some (createLoop size 0 []))
    else none
  else some none

/-- The heap as seen by `free_array`: the set of live (allocated, not yet
freed) non-null handles, each handle a positive address. -/
structure Heap where
  allocated : List Nat
deriving DecidableEq

/-- C `free_array` (main.c lines 128-138): `if (arr) free(arr);`.  The null
handle `0` is a no-op.  `free` on a live handle removes it from the heap;
`free` on a dead non-null handle is undefined behaviour in C (`none`). -/
def free_array (h : Heap) (arr : Nat) : Option Heap :=
  if arr = 0 then some h
  else if arr ∈ h.allocated then some ⟨h.allocated.filter (· ≠ arr)⟩
  else none

/-! ### Wraparound facts -/

/-- `wrap32` reduces its argument modulo `2 ^ 32`. -/
lemma wrap32_emod (x : Int) : wrap32 x % 2 ^ 32 = x % 2 ^ 32 := by
  unfold wrap32
  omega

/-- `wrap32` lands in the signed 32-bit range. -/
lemma wrap32_range (x : Int) : -2 ^ 31 ≤ wrap32 x ∧ wrap32 x < 2 ^ 31 := by
  unfold wrap32
  have h1 := Int.emod_nonneg (x + 2 ^ 31) (by norm_num : (2 : Int) ^ 32 ≠ 0)
  have h2 := Int.emod_lt_of_pos (x + 2 ^ 31) (by norm_num : (0 : Int) < 2 ^ 32)
  omega

/-- `wrap32` is the identity on the signed 32-bit range. -/
lemma wrap32_eq_self (x : Int) (h1 : -2 ^ 31 ≤ x) (h2 : x < 2 ^ 31) : wrap32 x = x := by
  unfold wrap32
  omega

/-- `wrap64` reduces its argument modulo `2 ^ 64`. -/
lemma wrap64_emod (x : Int) : wrap64 x % 2 ^ 64 = x % 2 ^ 64 := by
  unfold wrap64
  omega

/-- `wrap64` lands in the signed 64-bit range. -/
lemma wrap64_range (x : Int) : -2 ^ 63 ≤ wrap64 x ∧ wrap64 x < 2 ^ 63 := by
  unfold wrap64
  have h1 := Int.emod_nonneg (x + 2 ^ 63) (by norm_num : (2 : Int) ^ 64 ≠ 0)
  have h2 := Int.emod_lt_of_pos (x + 2 ^ 63) (by norm_num : (0 : Int) < 2 ^ 64)
  omega

/-! ### Fibonacci -/

/-- As long as the value is representable in a 32-bit `int`, the wrapping
C `fibonacci` computes `Nat.fib` (monotonicity keeps every intermediate
value representable too). -/
lemma fibonacci_eq_fib (k : Nat) (h : Nat.fib k < 2 ^ 31) :
    fibonacci (k : Int) = Nat.fib k := by
  induction k using Nat.strong_induction_on with
  | _ k ih =>
    match k with
    | 0 => rw [fibonacci]; norm_num
    | 1 => rw [fibonacci]; norm_num
    | (k + 2) =>
      rw [fibonacci, if_neg (by push_cast; omega)]
      have e1 : ((k + 2 : Nat) : Int) - 1 = ((k + 1 : Nat) : Int) := by push_cast; ring
      have e2 : ((k + 2 : Nat) : Int) - 2 = ((k : Nat) : Int) := by push_cast; ring
      have hm1 : Nat.fib (k + 1) < 2 ^ 31 :=
        lt_of_le_of_lt (Nat.fib_mono (by omega)) h
      have hm2 : Nat.fib k < 2 ^ 31 :=
        lt_of_le_of_lt (Nat.fib_mono (by omega)) h
      rw [e1, e2, ih (k + 1) (by omega) hm1, ih k (by omega) hm2]
      have hsum : (Nat.fib (k + 1) : Int) + (Nat.fib k : Int) = (Nat.fib (k + 2) : Int) := by
        push_cast [Nat.fib_add_two]
        ring
      rw [hsum, wrap32_eq_self _ (by omega) (by omega)]

/-- C2 (amended): for every `n ≥ 0` whose Fibonacci number is representable
in a 32-bit `int` (`Nat.fib n < 2^31`, i.e. `n ≤ 46`), `fibonacci n` is the
`n`-th Fibonacci number of the naive recursion; beyond that the 32-bit sum
wraps.  Every `n ≤ 1` is returned unchanged, and `fibonacci 0 = 0`,
`fibonacci 1 = 1`, `fibonacci 10 = 55`. -/
theorem c2_fibonacci_correct :
    (∀ k : Nat, Nat.fib k < 2 ^ 31 → fibonacci (k : Int) = Nat.fib k) ∧
    (∀ n : Int, n ≤ 1 → fibonacci n = n) ∧
    fibonacci 0 = 0 ∧ fibonacci 1 = 1 ∧ fibonacci 10 = 55 := by
  have hle : ∀ n : Int, n ≤ 1 → fibonacci n = n := by
    intro n h
    rw [fibonacci, if_pos h]
  refine ⟨fibonacci_eq_fib, hle, hle 0 (by norm_num), hle 1 le_rfl, ?_⟩
  have h10 := fibonacci_eq_fib 10 (by decide)
  rw [show ((10 : Nat) : Int) = (10 : Int) by norm_num] at h10
  rw [h10]
  decide

/-- C2 counterexample: at `n = 47` the 32-bit addition overflows
(`fib 47 = 2971215073 > 2^31 - 1`), so the program does not return the
47th Fibonacci number. -/
theorem c2_fibonacci_counterexample : fibonacci 47 ≠ ((Nat.fib 47 : Nat) : Int) := by
  have h46 := fibonacci_eq_fib 46 (by decide)
  have h45 := fibonacci_eq_fib 45 (by decide)
  rw [show ((46 : Nat) : Int) = (46 : Int) by norm_num] at h46
  rw [show ((45 : Nat) : Int) = (45 : Int) by norm_num] at h45
  rw [fibonacci, if_neg (by norm_num), show (47 : Int) - 1 = 46 by norm_num,
    show (47 : Int) - 2 = 45 by norm_num, h46, h45]
  decide

/-- C2 witness: the representable clause at the concrete input `12` and the
`n ≤ 1` clause at `-7`. -/
theorem c2_fibonacci_witness :
    fibonacci ((12 : Nat) : Int) = Nat.fib 12 ∧ fibonacci (-7) = -7 :=
  ⟨c2_fibonacci_correct.1 12 (by decide), c2_fibonacci_correct.2.1 (-7) (by decide)⟩

/-- C9: for every negative `n`, `fibonacci n` returns `n` itself, because the
base case `if (n <= 1) return n;` fires before any arithmetic. -/
theorem c9_fibonacci_negative (n : Int) (h : n < 0) : fibonacci n = n := by
  rw [fibonacci, if_pos (by omega)]

/-- C9 witness: `fibonacci (-5) = -5`. -/
theorem c9_fibonacci_negative_witness : fibonacci (-5) = -5 :=
  c9_fibonacci_negative (-5) (by decide)

/-! ### Array summation -/

/-- Loop invariant of `sum_array`: the wrapping accumulator stays congruent
modulo `2 ^ 32` to the exact sum of the elements from position `i` on. -/
lemma sumLoop_emod (numbers : List Int) :
    ∀ (k : Nat) (i sum : Int), 0 ≤ i → ((numbers.length : Int) - i).toNat = k →
      sumLoop numbers (numbers.length : Int) i sum % 2 ^ 32 =
        (sum + (numbers.drop i.toNat).sum) % 2 ^ 32 := by
  intro k
  induction k with
  | zero =>
    intro i sum hi hk
    rw [sumLoop, if_neg (by omega), List.drop_eq_nil_of_le (by omega)]
    simp
  | succ k ih =>
    intro i sum hi hk
    have hlt : i < (numbers.length : Int) := by omega
    have hidx : i.toNat < numbers.length := by omega
    rw [sumLoop, if_pos hlt, ih (i + 1) _ (by omega) (by omega),
      show (i + 1).toNat = i.toNat + 1 by omega,
      List.drop_eq_getElem_cons hidx, List.getD_eq_getElem numbers 0 hidx,
      List.sum_cons]
    have hw := wrap32_emod (sum + numbers[i.toNat])
    omega

/-- The result of the summation loop stays in the signed 32-bit range when
the accumulator starts there. -/
lemma sumLoop_range (numbers : List Int) (length : Int) :
    ∀ (k : Nat) (i sum : Int), (length - i).toNat = k →
      -2 ^ 31 ≤ sum → sum < 2 ^ 31 →
      -2 ^ 31 ≤ sumLoop numbers length i sum ∧ sumLoop numbers length i sum < 2 ^ 31 := by
  intro k
  induction k with
  | zero =>
    intro i sum hk h1 h2
    rw [sumLoop, if_neg (by omega)]
    exact ⟨h1, h2⟩
  | succ k ih =>
    intro i sum hk h1 h2
    have hlt : i < length := by omega
    rw [sumLoop, if_pos hlt]
    exact ih (i + 1) _ (by omega) (wrap32_range _).1 (wrap32_range _).2

/-- C6: for every integer sequence and explicit length matching the
sequence's bounds, `sum_array` returns the sum of all elements under
32-bit integer addition: the result is congruent to the exact sum modulo
`2 ^ 32`, lies in the signed 32-bit range, and equals the exact sum
whenever that sum is representable; `sum_array [1,2,3,4,5] 5 = 15` and
`sum_array [] 0 = 0`. -/
theorem c6_sum_array_correct :
    (∀ (numbers : List Int) (length : Int), length = (numbers.length : Int) →
      (sum_array numbers length % 2 ^ 32 = numbers.sum % 2 ^ 32 ∧
        -2 ^ 31 ≤ sum_array numbers length ∧ sum_array numbers length < 2 ^ 31) ∧
      (-2 ^ 31 ≤ numbers.sum → numbers.sum < 2 ^ 31 →
        sum_array numbers length = numbers.sum)) ∧
    sum_array [1, 2, 3, 4, 5] 5 = 15 ∧ sum_array [] 0 = 0 := by
  have main : ∀ (numbers : List Int) (length : Int), length = (numbers.length : Int) →
      (sum_array numbers length % 2 ^ 32 = numbers.sum % 2 ^ 32 ∧
        -2 ^ 31 ≤ sum_array numbers length ∧ sum_array numbers length < 2 ^ 31) ∧
      (-2 ^ 31 ≤ numbers.sum → numbers.sum < 2 ^ 31 →
        sum_array numbers length = numbers.sum) := by
    intro numbers length h
    subst h
    have hmod : sum_array numbers (numbers.length : Int) % 2 ^ 32 = numbers.sum % 2 ^ 32 := by
      rw [sum_array, sumLoop_emod numbers ((numbers.length : Int) - 0).toNat 0 0 le_rfl rfl]
      simp
    have hrange := sumLoop_range numbers (numbers.length : Int)
      ((numbers.length : Int) - 0).toNat 0 0 rfl (by norm_num) (by norm_num)
    rw [← sum_array] at hrange
    exact ⟨⟨hmod, hrange⟩, fun h1 h2 => by omega⟩
  refine ⟨main, ?_, ?_⟩
  · rw [(main [1, 2, 3, 4, 5] 5 (by norm_num)).2 (by decide) (by decide)]
    decide
  · rw [(main [] 0 (by norm_num)).2 (by decide) (by decide)]
    decide

/-- C6 witness: the exact-sum clause at the concrete input `[4, 5]`, `2`. -/
theorem c6_sum_array_witness : sum_array [4, 5] 2 = 9 := by
  rw [(c6_sum_array_correct.1 [4, 5] 2 (by norm_num)).2 (by decide) (by decide)]
  decide

/-- C10: for every length `L ≤ 0` (including negative `L`), `sum_array`
returns `0` for every sequence, reading no element. -/
theorem c10_sum_array_nonpositive (numbers : List Int) (length : Int)
    (h : length ≤ 0) : sum_array numbers length = 0 := by
  rw [sum_array, sumLoop, if_neg (by omega)]

/-- C10 witness: `sum_array [7, 8, 9] (-3) = 0`. -/
theorem c10_sum_array_nonpositive_witness : sum_array [7, 8, 9] (-3) = 0 :=
  c10_sum_array_nonpositive [7, 8, 9] (-3) (by decide)

/-! ### Factorial -/

/-- The exact (unwrapped) product `i * (i+1) * ... * n`, `1` when `i > n`. -/
def partFact (n i : Int) : Int :=
  if i ≤ n then i * partFact n (i + 1)
  else 1
termination_by (n + 1 - i).toNat
decreasing_by omega

/-- The exact partial product from `i` completes `(i-1)!` to `n!`. -/
lemma partFact_factorial :
    ∀ (k : Nat) (n i : Int), (n + 1 - i).toNat = k → 1 ≤ i → i ≤ n + 1 →
      partFact n i * ((i - 1).toNat.factorial : Int) = (n.toNat.factorial : Int) := by
  intro k
  induction k with
  | zero =>
    intro n i hk h1 h2
    rw [partFact, if_neg (by omega), one_mul, show i - 1 = n by omega]
  | succ k ih =>
    intro n i hk h1 h2
    have hle : i ≤ n := by omega
    have hit : i.toNat = (i - 1).toNat + 1 := by omega
    have hfac : (i.toNat.factorial : Int) = i * ((i - 1).toNat.factorial : Int) := by
      rw [hit, Nat.factorial_succ]
      push_cast
      rw [show ((i - 1).toNat : Int) + 1 = i from by omega]
    calc partFact n i * ((i - 1).toNat.factorial : Int)
        = partFact n (i + 1) * (i * ((i - 1).toNat.factorial : Int)) := by
          rw [partFact, if_pos hle]; ring
      _ = partFact n (i + 1) * (((i + 1) - 1).toNat.factorial : Int) := by
          rw [← hfac, show i + 1 - 1 = i from by ring]
      _ = (n.toNat.factorial : Int) := ih n (i + 1) (by omega) (by omega) (by omega)

/-- For every `n` below `INT_MAX` the factorial loop terminates within its
fuel (the counter never wraps), and the returned value is the exact partial
product reduced to the signed 64-bit range. -/
lemma factLoop_spec :
    ∀ (fuel : Nat) (n i r : Int), 2 ≤ i → i ≤ n + 1 → n ≤ 2 ^ 31 - 2 →
      (n + 1 - i).toNat < fuel → -2 ^ 63 ≤ r → r < 2 ^ 63 →
      ∃ v, factLoop fuel n i r = some v ∧ v % 2 ^ 64 = r * partFact n i % 2 ^ 64 ∧
        -2 ^ 63 ≤ v ∧ v < 2 ^ 63 := by
  intro fuel
  induction fuel with
  | zero =>
    intro n i r h2 h1 hn hf hr1 hr2
    exact absurd hf (by omega)
  | succ fuel ih =>
    intro n i r h2 h1 hn hf hr1 hr2
    by_cases hle : i ≤ n
    · have hw : wrap32 (i + 1) = i + 1 := wrap32_eq_self _ (by omega) (by omega)
      simp only [factLoop, if_pos hle, hw]
      obtain ⟨v, hv, hmod, hvr⟩ := ih n (i + 1) (wrap64 (r * i)) (by omega) (by omega) hn
        (by omega) (wrap64_range _).1 (wrap64_range _).2
      refine ⟨v, hv, ?_, hvr⟩
      rw [hmod]
      conv_rhs => rw [partFact, if_pos hle]
      calc wrap64 (r * i) * partFact n (i + 1) % 2 ^ 64
          = wrap64 (r * i) % 2 ^ 64 * (partFact n (i + 1) % 2 ^ 64) % 2 ^ 64 := by
            rw [Int.mul_emod]
        _ = r * i % 2 ^ 64 * (partFact n (i + 1) % 2 ^ 64) % 2 ^ 64 := by
            rw [wrap64_emod]
        _ = r * i * partFact n (i + 1) % 2 ^ 64 := by
            rw [← Int.mul_emod]
        _ = r * (i * partFact n (i + 1)) % 2 ^ 64 := by
            ring_nf
    · simp only [factLoop, if_neg hle]
      refine ⟨r, rfl, ?_, hr1, hr2⟩
      rw [partFact, if_neg hle, mul_one]

/-- At `n = INT_MAX` the loop never exits, for any fuel: exiting needs
`i = 2^31`, which is not representable, so the wrapped counter stays
`≤ n` forever. -/
lemma factLoop_intmax :
    ∀ (fuel : Nat) (i r : Int), -2 ^ 31 ≤ i → i < 2 ^ 31 →
      factLoop fuel (2 ^ 31 - 1) i r = none := by
  intro fuel
  induction fuel with
  | zero =>
    intro i r h1 h2
    rfl
  | succ fuel ih =>
    intro i r h1 h2
    have hle : i ≤ 2 ^ 31 - 1 := by omega
    simp only [factLoop, if_pos hle]
    exact ih _ _ (wrap32_range _).1 (wrap32_range _).2

/-- C3 (amended): `factorial n` returns `1` for every `n ≤ 1` (so
`factorial 0 = 1`); for `2 ≤ n ≤ 2^31 - 2` it returns the product
`2 * 3 * ... * n` computed with 64-bit wraparound, i.e. a signed 64-bit
value congruent to `n!` modulo `2 ^ 64`; `factorial 5 = 120`; and at
`n = 2^31 - 1` the 32-bit loop counter wraps and the loop never terminates
(no value for any fuel). -/
theorem c3_factorial_correct :
    (∀ n : Int, n ≤ 1 → factorial n = some 1) ∧
    (∀ n : Int, 2 ≤ n → n ≤ 2 ^ 31 - 2 →
      ∃ r, factorial n = some r ∧ r % 2 ^ 64 = (n.toNat.factorial : Int) % 2 ^ 64 ∧
        -2 ^ 63 ≤ r ∧ r < 2 ^ 63) ∧
    factorial 0 = some 1 ∧ factorial 5 = some 120 ∧
    (∀ fuel : Nat, factLoop fuel (2 ^ 31 - 1) 2 1 = none) := by
  have hone : ∀ n : Int, n ≤ 1 → factorial n = some 1 := by
    intro n h
    rw [factorial, if_pos h]
  have hmain : ∀ n : Int, 2 ≤ n → n ≤ 2 ^ 31 - 2 →
      ∃ r, factorial n = some r ∧ r % 2 ^ 64 = (n.toNat.factorial : Int) % 2 ^ 64 ∧
        -2 ^ 63 ≤ r ∧ r < 2 ^ 63 := by
    intro n h2 hn
    rw [factorial, if_neg (by omega)]
    obtain ⟨v, hv, hmod, hvr⟩ := factLoop_spec (n.toNat + 1) n 2 1 le_rfl (by omega) hn
      (by omega) (by norm_num) (by norm_num)
    refine ⟨v, hv, ?_, hvr⟩
    rw [hmod, one_mul]
    have hp := partFact_factorial (n + 1 - 2).toNat n 2 rfl (by omega) (by omega)
    rw [show ((2 : Int) - 1).toNat = 1 from rfl] at hp
    rw [show (Nat.factorial 1 : Int) = 1 from rfl, mul_one] at hp
    rw [hp]
  refine ⟨hone, hmain, hone 0 (by norm_num), ?_, ?_⟩
  · decide
  · intro fuel
    exact factLoop_intmax fuel 2 1 (by norm_num) (by norm_num)

/-- C3 counterexample: at `n = INT_MAX = 2147483647` the loop counter
cannot pass `n`, so the program never returns (modelled as `none`),
refuting "returns n! as a 64-bit integer" for every `n`. -/
theorem c3_factorial_counterexample : factorial 2147483647 = none := by
  rw [factorial, if_neg (by norm_num), show (2147483647 : Int) = 2 ^ 31 - 1 by norm_num]
  exact factLoop_intmax _ 2 1 (by norm_num) (by norm_num)

/-- C3 witness: the two clauses at the concrete inputs `1` and `6`. -/
theorem c3_factorial_witness :
    factorial 1 = some 1 ∧
    ∃ r, factorial 6 = some r ∧ r % 2 ^ 64 = ((6 : Int).toNat.factorial : Int) % 2 ^ 64 ∧
      -2 ^ 63 ≤ r ∧ r < 2 ^ 63 :=
  ⟨c3_factorial_correct.1 1 (by decide), c3_factorial_correct.2.1 6 (by decide) (by decide)⟩

/-! ### Primality

For `n ≤ 2147117568 = 46337^2 - 1` the loop exits no later than
`i = 46337`, every product `i * i` it evaluates is below `2^31`, and the
32-bit operations never wrap, so trial division behaves exactly.  At
`n ≥ 46337^2` the first wrapping product is reachable (`i = 46343`), and at
the prime `n = INT_MAX` every wrapped value is `≤ n`, so the loop runs
until it meets the divisor `n` itself and answers `0`. -/

/-- On the non-overflowing domain the trial-division loop returns `0` or
`1` within its fuel. -/
lemma primeLoop_zero_or_one (n : Int) (hn : n ≤ 2147117568) :
    ∀ (fuel : Nat) (i : Int), 5 ≤ i → i % 6 = 5 → i ≤ 46337 → i ≤ n + 6 →
      (n + 7 - i).toNat ≤ 6 * fuel →
      primeLoop fuel n i = some 0 ∨ primeLoop fuel n i = some 1 := by
  intro fuel
  induction fuel with
  | zero =>
    intro i h5 h6 h46 hin hf
    exact absurd hf (by omega)
  | succ fuel ih =>
    intro i h5 h6 h46 hin hf
    have hsq := mul_self_nonneg i
    have hii : i * i < 2 ^ 31 := by
      nlinarith [mul_nonneg (show (0 : Int) ≤ 46337 - i by omega)
        (show (0 : Int) ≤ 46337 + i by omega)]
    have hw : wrap32 (i * i) = i * i := wrap32_eq_self _ (by omega) hii
    by_cases hcond : i * i ≤ n
    · simp only [primeLoop, hw, if_pos hcond]
      by_cases hq : n % i = 0 ∨ n % (i + 2) = 0
      · rw [if_pos hq]
        exact Or.inl rfl
      · rw [if_neg hq]
        have hin' : i ≤ n := by
          nlinarith [mul_nonneg (show (0 : Int) ≤ i - 1 by omega)
            (show (0 : Int) ≤ i by omega)]
        have hi46 : i ≤ 46331 := by
          have h36 : i ≤ 46336 := by
            by_contra hc
            push_neg at hc
            nlinarith [mul_nonneg (show (0 : Int) ≤ i - 46337 by omega)
              (show (0 : Int) ≤ i - 46337 by omega)]
          omega
        have hw6 : wrap32 (i + 6) = i + 6 := wrap32_eq_self _ (by omega) (by omega)
        rw [hw6]
        exact ih (i + 6) (by omega) (by omega) (by omega) (by omega) (by omega)
    · right
      simp only [primeLoop, hw, if_neg hcond]

/-- On the non-overflowing domain, if the loop returns `1` then no
candidate `d ≥ i` with `d * d ≤ n` and `d ≡ ±1 (mod 6)` divides `n`. -/
lemma primeLoop_one_not_dvd (n : Int) (hn : n ≤ 2147117568) :
    ∀ (fuel : Nat) (i : Int), 5 ≤ i → i % 6 = 5 → i ≤ 46337 → i ≤ n + 6 →
      (n + 7 - i).toNat ≤ 6 * fuel → primeLoop fuel n i = some 1 →
      ∀ d : Int, i ≤ d → d * d ≤ n → (d % 6 = 1 ∨ d % 6 = 5) → ¬ d ∣ n := by
  intro fuel
  induction fuel with
  | zero =>
    intro i h5 h6 h46 hin hf
    exact absurd hf (by omega)
  | succ fuel ih =>
    intro i h5 h6 h46 hin hf hone d hd hdd hd6 hdvd
    have hsq := mul_self_nonneg i
    have hii : i * i < 2 ^ 31 := by
      nlinarith [mul_nonneg (show (0 : Int) ≤ 46337 - i by omega)
        (show (0 : Int) ≤ 46337 + i by omega)]
    have hw : wrap32 (i * i) = i * i := wrap32_eq_self _ (by omega) hii
    by_cases hcond : i * i ≤ n
    · simp only [primeLoop, hw, if_pos hcond] at hone
      by_cases hq : n % i = 0 ∨ n % (i + 2) = 0
      · rw [if_pos hq] at hone
        exact absurd hone (by decide)
      · rw [if_neg hq] at hone
        push_neg at hq
        have hin' : i ≤ n := by
          nlinarith [mul_nonneg (show (0 : Int) ≤ i - 1 by omega)
            (show (0 : Int) ≤ i by omega)]
        rcases eq_or_ne d i with rfl | hne1
        · exact hq.1 (Int.emod_eq_zero_of_dvd hdvd)
        rcases eq_or_ne d (i + 2) with rfl | hne2
        · exact hq.2 (Int.emod_eq_zero_of_dvd hdvd)
        have hi46 : i ≤ 46331 := by
          have h36 : i ≤ 46336 := by
            by_contra hc
            push_neg at hc
            nlinarith [mul_nonneg (show (0 : Int) ≤ i - 46337 by omega)
              (show (0 : Int) ≤ i - 46337 by omega)]
          omega
        have hw6 : wrap32 (i + 6) = i + 6 := wrap32_eq_self _ (by omega) (by omega)
        rw [hw6] at hone
        exact ih (i + 6) (by omega) (by omega) (by omega) (by omega) (by omega) hone
          d (by omega) hdd hd6 hdvd
    · have hmono : i * i ≤ d * d := by
        nlinarith [mul_nonneg (show (0 : Int) ≤ d - i by omega)
          (show (0 : Int) ≤ d + i by omega)]
      linarith

/-- On the non-overflowing domain, if the loop returns `0` then `n` has a
nontrivial divisor, so `n` is composite. -/
lemma primeLoop_zero_divisor (n : Int) (hn : n ≤ 2147117568) :
    ∀ (fuel : Nat) (i : Int), 5 ≤ i → i % 6 = 5 → i ≤ 46337 → i ≤ n + 6 →
      (n + 7 - i).toNat ≤ 6 * fuel → primeLoop fuel n i = some 0 →
      ∃ d : Int, 2 ≤ d ∧ d < n ∧ d ∣ n := by
  intro fuel
  induction fuel with
  | zero =>
    intro i h5 h6 h46 hin hf
    exact absurd hf (by omega)
  | succ fuel ih =>
    intro i h5 h6 h46 hin hf hzero
    have hsq := mul_self_nonneg i
    have hii : i * i < 2 ^ 31 := by
      nlinarith [mul_nonneg (show (0 : Int) ≤ 46337 - i by omega)
        (show (0 : Int) ≤ 46337 + i by omega)]
    have hw : wrap32 (i * i) = i * i := wrap32_eq_self _ (by omega) hii
    by_cases hcond : i * i ≤ n
    · simp only [primeLoop, hw, if_pos hcond] at hzero
      have h5i : 5 * i ≤ i * i := by
        nlinarith [mul_nonneg (show (0 : Int) ≤ i - 5 by omega)
          (show (0 : Int) ≤ i by omega)]
      by_cases hq : n % i = 0 ∨ n % (i + 2) = 0
      · rcases hq with hq | hq
        · exact ⟨i, by omega, by linarith, Int.dvd_of_emod_eq_zero hq⟩
        · exact ⟨i + 2, by omega, by linarith, Int.dvd_of_emod_eq_zero hq⟩
      · rw [if_neg hq] at hzero
        have hin' : i ≤ n := by linarith
        have hi46 : i ≤ 46331 := by
          have h36 : i ≤ 46336 := by
            by_contra hc
            push_neg at hc
            nlinarith [mul_nonneg (show (0 : Int) ≤ i - 46337 by omega)
              (show (0 : Int) ≤ i - 46337 by omega)]
          omega
        have hw6 : wrap32 (i + 6) = i + 6 := wrap32_eq_self _ (by omega) (by omega)
        rw [hw6] at hzero
        exact ih (i + 6) (by omega) (by omega) (by omega) (by omega) (by omega) hzero
    · simp only [primeLoop, hw, if_neg hcond] at hzero
      exact absurd hzero (by decide)

/-- On the non-overflowing domain, `is_prime n = some 1` exactly when
`n > 1` and `n` is a prime number. -/
lemma is_prime_eq_one_iff (n : Int) (hn : n ≤ 2147117568) :
    is_prime n = some 1 ↔ 1 < n ∧ Nat.Prime n.toNat := by
  rw [is_prime]
  by_cases h1 : n ≤ 1
  · rw [if_pos h1]
    constructor
    · intro h
      exact absurd h (by decide)
    · rintro ⟨h, -⟩
      omega
  rw [if_neg h1]
  by_cases h3 : n ≤ 3
  · rw [if_pos h3]
    refine ⟨fun _ => ⟨by omega, ?_⟩, fun _ => rfl⟩
    interval_cases n
    · decide
    · decide
  rw [if_neg h3]
  by_cases h23 : n % 2 = 0 ∨ n % 3 = 0
  · rw [if_pos h23]
    constructor
    · intro h
      exact absurd h (by decide)
    · rintro ⟨hgt, hp⟩
      exfalso
      rcases h23 with h2 | h2
      · have hdn : (2 : Nat) ∣ n.toNat := by omega
        have := hp.eq_one_or_self_of_dvd 2 hdn
        omega
      · have hdn : (3 : Nat) ∣ n.toNat := by omega
        have := hp.eq_one_or_self_of_dvd 3 hdn
        omega
  · rw [if_neg h23]
    push_neg at h23
    obtain ⟨h2, h3'⟩ := h23
    have h4 : 3 < n := by omega
    constructor
    · intro hone
      refine ⟨by omega, ?_⟩
      by_contra hnp
      have hm1 : n.toNat ≠ 1 := by omega
      have hpf := Nat.minFac_prime hm1
      have hdvd := Nat.minFac_dvd n.toNat
      have hsq : n.toNat.minFac * n.toNat.minFac ≤ n.toNat := by
        have := Nat.minFac_sq_le_self (by omega) hnp
        nlinarith [this]
      have hp2 : n.toNat.minFac ≠ 2 := by
        intro heq
        rw [heq] at hdvd
        omega
      have hp3 : n.toNat.minFac ≠ 3 := by
        intro heq
        rw [heq] at hdvd
        omega
      have hple : 2 ≤ n.toNat.minFac := hpf.two_le
      have hp4 : n.toNat.minFac ≠ 4 := by
        intro heq
        rw [heq] at hpf
        norm_num at hpf
      have hp5 : 5 ≤ n.toNat.minFac := by omega
      have hp2' : ¬ (2 ∣ n.toNat.minFac) := by
        intro hd
        rcases hpf.eq_one_or_self_of_dvd 2 hd with he | he <;> omega
      have hp3' : ¬ (3 ∣ n.toNat.minFac) := by
        intro hd
        rcases hpf.eq_one_or_self_of_dvd 3 hd with he | he <;> omega
      have hp6 : (n.toNat.minFac : Int) % 6 = 1 ∨ (n.toNat.minFac : Int) % 6 = 5 := by
        omega
      have hdint : (n.toNat.minFac : Int) ∣ n := by
        have hcast := Int.natCast_dvd_natCast.mpr hdvd
        rwa [Int.toNat_of_nonneg (by omega : (0 : Int) ≤ n)] at hcast
      exact primeLoop_one_not_dvd n hn n.toNat 5 (by norm_num) (by norm_num) (by norm_num)
        (by omega) (by omega) hone (n.toNat.minFac : Int) (by omega) (by omega) hp6 hdint
    · rintro ⟨hn1, hp⟩
      rcases primeLoop_zero_or_one n hn n.toNat 5 (by norm_num) (by norm_num) (by norm_num)
        (by omega) (by omega) with h0 | hone
      · exfalso
        obtain ⟨d, hd2, hdn, hdvd⟩ := primeLoop_zero_divisor n hn n.toNat 5 (by norm_num)
          (by norm_num) (by norm_num) (by omega) (by omega) h0
        have hdnat : d.toNat ∣ n.toNat := by
          rw [← Int.natCast_dvd_natCast]
          rwa [Int.toNat_of_nonneg (by omega : (0 : Int) ≤ d),
            Int.toNat_of_nonneg (by omega : (0 : Int) ≤ n)]
        have := hp.eq_one_or_self_of_dvd d.toNat hdnat
        omega
      · exact hone

/-- At the prime `n = INT_MAX` every wrapped 32-bit value is `≤ n`, so the
loop condition never fails; stepping through the `6k ± 1` candidates it
reaches `i + 2 = n` at the latest and returns `0`. -/
lemma primeLoop_intmax :
    ∀ (fuel : Nat) (i : Int), 5 ≤ i → i % 6 = 5 → i ≤ 2147483645 →
      (2147483645 - i).toNat < 6 * fuel →
      primeLoop fuel 2147483647 i = some 0 := by
  intro fuel
  induction fuel with
  | zero =>
    intro i h5 h6 hle hf
    exact absurd hf (by omega)
  | succ fuel ih =>
    intro i h5 h6 hle hf
    have hcond : wrap32 (i * i) ≤ 2147483647 := by
      have := wrap32_range (i * i)
      omega
    simp only [primeLoop, if_pos hcond]
    by_cases hq : (2147483647 : Int) % i = 0 ∨ (2147483647 : Int) % (i + 2) = 0
    · rw [if_pos hq]
    · rw [if_neg hq]
      push_neg at hq
      have hne : i ≠ 2147483645 := by
        intro heq
        apply hq.2
        rw [heq]
        decide
      have hle' : i ≤ 2147483639 := by omega
      have hw6 : wrap32 (i + 6) = i + 6 := wrap32_eq_self _ (by omega) (by omega)
      rw [hw6]
      exact ih (i + 6) (by omega) (by omega) (by omega) (by omega)

/-- C1 counterexample: `INT_MAX = 2147483647` is prime, yet `is_prime`
answers `0` there: from `i = 46343` on, the 32-bit product `i * i` wraps to
a value `≤ n`, the loop never exits through its condition, and it finally
meets the divisor `n` itself. -/
theorem c1_is_prime_counterexample :
    is_prime 2147483647 = some 0 ∧ Nat.Prime 2147483647 := by
  constructor
  · rw [is_prime, if_neg (by norm_num), if_neg (by norm_num), if_neg (by decide)]
    exact primeLoop_intmax (2147483647 : Int).toNat 5 (by norm_num) (by norm_num)
      (by norm_num) (by decide)
  · rw [show (2147483647 : Nat) = mersenne 31 by norm_num [mersenne]]
    exact lucas_lehmer_sufficiency 31 (by norm_num) (by norm_num)

/-- C1 (amended): for every `n ≤ 2147117568` (the domain on which the
32-bit products `i * i` of the trial-division loop cannot overflow)
`is_prime n` returns `some 1` if `n` is prime and `some 0` otherwise; for
every integer `n` it returns `some 0` when `n ≤ 1` and when `n > 3` is a
multiple of `2` or `3`; `is_prime 2 = is_prime 3 = some 1`; and
`is_prime 17 = some 1`. -/
theorem c1_is_prime_correct :
    (∀ n : Int, n ≤ 2147117568 →
      (is_prime n = some 1 ↔ 1 < n ∧ Nat.Prime n.toNat) ∧
      (is_prime n = some 0 ∨ is_prime n = some 1)) ∧
    (∀ n : Int, (n ≤ 1 → is_prime n = some 0) ∧
      (3 < n → (2 ∣ n ∨ 3 ∣ n) → is_prime n = some 0)) ∧
    is_prime 2 = some 1 ∧ is_prime 3 = some 1 ∧ is_prime 17 = some 1 := by
  have hrange : ∀ n : Int, n ≤ 2147117568 →
      is_prime n = some 0 ∨ is_prime n = some 1 := by
    intro n hn
    rw [is_prime]
    by_cases h1 : n ≤ 1
    · rw [if_pos h1]
      exact Or.inl rfl
    rw [if_neg h1]
    by_cases h3 : n ≤ 3
    · rw [if_pos h3]
      exact Or.inr rfl
    rw [if_neg h3]
    by_cases h23 : n % 2 = 0 ∨ n % 3 = 0
    · rw [if_pos h23]
      exact Or.inl rfl
    · rw [if_neg h23]
      exact primeLoop_zero_or_one n hn n.toNat 5 (by norm_num) (by norm_num) (by norm_num)
        (by omega) (by omega)
  refine ⟨fun n hn => ⟨is_prime_eq_one_iff n hn, hrange n hn⟩, fun n => ⟨?_, ?_⟩, ?_, ?_, ?_⟩
  · intro hle
    rw [is_prime, if_pos hle]
  · intro h4 hdvd
    rw [is_prime, if_neg (by omega), if_neg (by omega), if_pos (by omega)]
  · exact (is_prime_eq_one_iff 2 (by norm_num)).mpr ⟨by norm_num, by decide⟩
  · exact (is_prime_eq_one_iff 3 (by norm_num)).mpr ⟨by norm_num, by decide⟩
  · exact (is_prime_eq_one_iff 17 (by norm_num)).mpr ⟨by norm_num, by decide⟩

/-- C1 witness: the iff at `13`, the `n ≤ 1` clause at `0` and the
multiple-of-2 clause at `10`. -/
theorem c1_is_prime_witness :
    is_prime 13 = some 1 ∧ is_prime 0 = some 0 ∧ is_prime 10 = some 0 :=
  ⟨((c1_is_prime_correct.1 13 (by norm_num)).1).mpr ⟨by norm_num, by decide⟩,
    (c1_is_prime_correct.2.1 0).1 (by decide),
    (c1_is_prime_correct.2.1 10).2 (by decide) (Or.inl ⟨5, by norm_num⟩)⟩

/-! ### Array creation and release -/

/-- Loop invariant of `create_array`: starting the initialisation at index
`i` appends the values `i+1, i+2, ...` for the remaining iterations. -/
lemma createLoop_eq (size : Int) :
    ∀ (k : Nat) (i : Int) (acc : List Int), (size - i).toNat = k →
      createLoop size i acc = acc ++ (List.range k).map (fun j : Nat => i + (j : Int) + 1) := by
  intro k
  induction k with
  | zero =>
    intro i acc hk
    rw [createLoop, if_neg (by omega)]
    simp
  | succ k ih =>
    intro i acc hk
    have hlt : i < size := by omega
    rw [createLoop, if_pos hlt, ih (i + 1) _ (by omega), List.append_assoc,
      List.singleton_append, List.range_succ_eq_map, List.map_cons, List.map_map]
    congr 1
    congr 1
    · push_cast
      ring
    · apply List.map_congr_left
      intro j hj
      simp only [Function.comp_apply]
      push_cast
      ring

/-- C4 (amended): for every `0 ≤ size < 2^30`, when allocation succeeds
`create_array` returns a sequence of length `size` whose entry at every
index holds `index + 1`, and `create_array 5` yields `[1, 2, 3, 4, 5]`;
for `size ≥ 2^30` the 32-bit byte count `size * 4` wraps, the buffer is
under-sized and the initialisation loop writes out of bounds (undefined
behaviour, `none`). -/
theorem c4_create_array_correct :
    (∀ size : Int, 0 ≤ size → size < 2 ^ 30 → ∃ arr : List Int,
      create_array size true = some (some arr) ∧ (arr.length : Int) = size ∧
        ∀ i : Nat, i < arr.length → arr.getD i 0 = (i : Int) + 1) ∧
    (∀ size : Int, 2 ^ 30 ≤ size → create_array size true = none) ∧
    create_array 5 true = some (some [1, 2, 3, 4, 5]) := by
  refine ⟨?_, ?_, ?_⟩
  · intro size h0 hlt
    rw [create_array, if_pos rfl, if_pos (by omega)]
    refine ⟨createLoop size 0 [], rfl, ?_, ?_⟩
    · rw [createLoop_eq size (size - 0).toNat 0 [] rfl]
      simp only [List.nil_append, List.length_map, List.length_range]
      omega
    · intro i hi
      rw [createLoop_eq size (size - 0).toNat 0 [] rfl] at hi ⊢
      simp only [List.nil_append, List.length_map, List.length_range] at hi
      rw [List.nil_append, List.getD_eq_getElem _ _ (by simpa using hi)]
      simp only [List.getElem_map, List.getElem_range]
      ring
  · intro size hge
    rw [create_array, if_pos rfl, if_neg (by omega)]
  · rw [create_array, if_pos rfl, if_pos (by norm_num),
      createLoop_eq 5 5 0 [] (by decide)]
    decide

/-- C4 counterexample: at `size = 2^30` the byte count `size * 4` computed
in 32-bit `size_t` wraps to `0`, the buffer cannot hold the `2^30` writes
of the initialisation loop, and the call is undefined behaviour rather
than a full-length sequence. -/
theorem c4_create_array_counterexample : create_array 1073741824 true = none := by
  rw [create_array, if_pos rfl, if_neg (by norm_num)]

/-- C4 witness: the success clause at the concrete input `size = 3`. -/
theorem c4_create_array_witness :
    ∃ arr : List Int, create_array 3 true = some (some arr) ∧ (arr.length : Int) = 3 ∧
      ∀ i : Nat, i < arr.length → arr.getD i 0 = (i : Int) + 1 :=
  c4_create_array_correct.1 3 (by decide) (by decide)

/-- C7: on allocation failure `create_array` returns the null handle
(`some none`), and the null handle is returned exactly on allocation
failure — it is the module's only error signal, delivered as a return
value, never as an exception (every operation is a total function). -/
theorem c7_create_array_alloc_failure :
    ∀ (size : Int) (allocOk : Bool),
      create_array size false = some none ∧
      (create_array size allocOk = some none ↔ allocOk = false) := by
  intro size allocOk
  refine ⟨rfl, ?_⟩
  cases allocOk
  · simp [create_array]
  · rw [create_array, if_pos rfl]
    constructor
    · intro h
      by_cases hc : size ≤ size * 4 % 2 ^ 32 / 4
      · rw [if_pos hc] at h
        exact absurd h (by simp)
      · rw [if_neg hc] at h
        exact absurd h (by simp)
    · intro h
      exact absurd h (by simp)

/-- C5 counterexample: on the heap whose only live handle is `1`, the first
`free_array 1` succeeds (releasing the handle), and the second
`free_array 1` on the same, now dead, non-null handle is undefined
behaviour (`none`) — the code guards only against the null handle, so the
claim that a repeated release of the same handle must not crash fails. -/
theorem c5_free_array_counterexample :
    free_array ⟨[1]⟩ 1 = some ⟨[]⟩ ∧ free_array ⟨[]⟩ 1 = none := by
  decide

/-- C5 (amended): `free_array` tolerates the null handle as a no-op
(repeatably); releasing a live handle succeeds and is terminal; but a
second `free_array` on the same non-null handle after its release is
undefined behaviour — only the null-handle case is guarded. -/
theorem c5_free_array_amended :
    ∀ (h : Heap) (arr : Nat),
      free_array h 0 = some h ∧
      (arr ≠ 0 → arr ∈ h.allocated →
        ∃ h2 : Heap, free_array h arr = some h2 ∧ arr ∉ h2.allocated ∧
          free_array h2 arr = none) := by
  intro h arr
  constructor
  · rw [free_array, if_pos rfl]
  · intro h0 hmem
    refine ⟨⟨h.allocated.filter (· ≠ arr)⟩, ?_, ?_, ?_⟩
    · rw [free_array, if_neg h0, if_pos hmem]
    · simp [List.mem_filter]
    · rw [free_array, if_neg h0, if_neg (by simp [List.mem_filter])]

/-- C5 witness: the amended clauses at the concrete heap `⟨[2]⟩`, handle `2`. -/
theorem c5_free_array_amended_witness :
    ∃ h2 : Heap, free_array ⟨[2]⟩ 2 = some h2 ∧ 2 ∉ h2.allocated ∧
      free_array h2 2 = none :=
  (c5_free_array_amended ⟨[2]⟩ 2).2 (by decide) (by decide)
